import Mathlib

/-!
Verification of the map_api distributed storage core against its
natural-language specification.  The definitions below are a shallow
embedding of the C++ sources: logical times and 128-bit identifiers are
modelled as natural numbers (only equality, ordering and hashing are used
by the embedded code), peer addresses as naturals with their total order,
and fallible or CHECK-guarded code as Option-returning functions where
the value none denotes a fatal CHECK failure / LOG(FATAL) or undefined
behaviour.
-/

namespace MapApi

/-- A row revision (map-api/revision.h, proto Revision): id, insert and
update logical times, removed flag, chunk id, and opaque field values
keyed by field index. -/
structure Revision where
  id : Nat
  insertTime : Nat
  updateTime : Nat
  removed : Bool
  chunkId : Nat
  fields : List (Int × Nat)
deriving DecidableEq, Repr

/-- Field lookup on a revision, used by Revision::fieldMatch. -/
def Revision.fieldAt (r : Revision) (key : Int) : Option Nat :=
  r.fields.lookup key

/-- Revision::fieldMatch of the value holder against a stored revision at
one field key: the two revisions carry the same value at that field. -/
def Revision.fieldMatch (valueHolder : Revision) (r : Revision) (key : Int) : Bool :=
  valueHolder.fieldAt key == r.fieldAt key

/-- The per-table row store of CRUTableSTXXLMap: an association of row id
to the history of its revisions, most recent (highest update time)
first.  The C++ data_ member is a map from Id to STXXLHistory. -/
def Container := List (Nat × List Revision)

instance : DecidableEq Container := by
  unfold Container
  infer_instance

/-- History lookup in the container (data_.find(id)). -/
def Container.histOf (c : Container) (i : Nat) : Option (List Revision) :=
  c.lookup i

/-- STXXLHistory::latestAt(t): the first (most recent) revision in the
history whose update time is at or before t, if any. -/
def latestAt (h : List Revision) (t : Nat) : Option Revision :=
  h.find? (fun r => r.updateTime ≤ t)

/-- The contents dump used by Chunk::check (CRTable::dump, implemented by
forEachItemFoundAtTime with no field filter): for every id, its latest
revision at the given time, provided it exists and is not removed. -/
def dumpAt (c : Container) (t : Nat) : List (Nat × Revision) :=
  c.filterMap (fun p =>
    match latestAt p.2 t with
    | some r => if r.removed then none else some (p.1, r)
    | none => none)

/-- CRUTableSTXXLMap::countByRevisionCRDerived: the number of rows whose
alive latest revision at the given time matches the value holder on the
field key, where a negative key matches every alive row. -/
def countByRevision (c : Container) (key : Int) (valueHolder : Revision)
    (t : Nat) : Nat :=
  ((dumpAt c t).filter
    (fun p => decide (key < 0) || Revision.fieldMatch valueHolder p.2 key)).length

/-- data_[id].push_front(revision): prepend a revision to the history of
an id, creating the history if the id is absent. -/
def Container.pushFrontAt (c : Container) (i : Nat) (r : Revision) : Container :=
  match c with
  | [] => [(i, [r])]
  | (j, h) :: rest =>
    if i = j then (j, r :: h) :: rest else (j, h) :: Container.pushFrontAt rest i r

/-- CRUTableSTXXLMap::bulkInsertCRUDerived: first pass fails (false) if
any id of the batch is already present in data_; otherwise a second pass
stores every revision of the batch and the call returns true. -/
def bulkInsertCRUDerived (c : Container) (batch : List (Nat × Revision)) :
    Bool × Container :=
  if batch.any (fun p => (c.histOf p.1).isSome) then (false, c)
  else (true, batch.foldl (fun acc p => Container.pushFrontAt acc p.1 p.2) c)

/-- The in-history part of CRUTableSTXXLMap::patchCRDerived: walk the
history front to back and insert the revision before the first entry
whose update time is at or before the revision's; an entry with exactly
equal update time trips CHECK_NE(time, it->update_time_), which is
fatal (none); if no entry qualifies the revision is pushed at the back. -/
def patchHistory (h : List Revision) (r : Revision) : Option (List Revision) :=
  match h with
  | [] => some [r]
  | e :: rest =>
    if e.updateTime ≤ r.updateTime then
      if r.updateTime = e.updateTime then none
      else some (r :: e :: rest)
    else
      match patchHistory rest r with
      | some rest' => some (e :: rest')
      | none => none

/-- CRUTableSTXXLMap::patchCRDerived: admit a remote revision into the
container, creating the id's history if absent, otherwise splicing the
revision into the existing history via patchHistory (none = fatal). -/
def patchCRDerived (c : Container) (r : Revision) : Option Container :=
  match c with
  | [] => some [(r.id, [r])]
  | (i, h) :: rest =>
    if r.id = i then
      match patchHistory h r with
      | some h' => some ((i, h') :: rest)
      | none => none
    else
      match patchCRDerived rest r with
      | some rest' => some ((i, h) :: rest')
      | none => none

/-- A conflict condition of a chunk transaction: a field key together
with an exemplar revision (value holder). -/
structure ConflictCondition where
  key : Int
  valueHolder : Revision
deriving DecidableEq, Repr

/-- The buffered state of a ChunkTransaction: begin time, id-keyed
insertions, id-keyed updates and the conflict-condition list. -/
structure ChunkTransaction where
  beginTime : Nat
  insertions : List (Nat × Revision)
  updates : List (Nat × Revision)
  conflictConditions : List ConflictCondition
deriving DecidableEq, Repr

/-- Chunk::check: dump the table contents at the first sampled time;
fail if some buffered insertion's id is among the dumped ids, or some
buffered update's id has a dumped latest update time at or after the
transaction's begin time (ids absent from the dump default to time 0 via
std::unordered_map::operator[]), or some conflict condition matches at
least one row at the second sampled time. -/
def Chunk.check (c : Container) (tx : ChunkTransaction) (tDump tCheck : Nat) :
    Bool :=
  if tx.insertions.any (fun p => ((dumpAt c tDump).map Prod.fst).contains p.1) then
    false
  else if tx.updates.any (fun p =>
      tx.beginTime ≤ (match (dumpAt c tDump).lookup p.1 with
        | some r => r.updateTime
        | none => 0)) then
    false
  else if tx.conflictConditions.any (fun cond =>
      0 < countByRevision c cond.key cond.valueHolder tCheck) then
    false
  else
    true

/-- Modelled from the spec: CRUTable::update at commit time (the table
side of Chunk::update is not under the sources at hand; per the spec,
update(t, revision) prepends the revision with update time t, which the
STXXL backend realises through patchCRDerived).  Only the success branch
of Chunk::commit uses this. -/
def CRUTable.update (c : Container) (r : Revision) (t : Nat) : Option Container :=
  patchCRDerived c { r with updateTime := t }

/-- Chunk::commit: take the distributed write lock (recursion depth + 1),
run Chunk::check, and on failure release the lock and return false with
the container untouched; on success bulk-insert the buffered insertions,
apply the buffered updates, and release the lock.  The result is the
return value, the lock recursion depth and the container (none = a fatal
CHECK in the apply path). -/
def Chunk.commit (depth : Nat) (c : Container) (tx : ChunkTransaction)
    (tDump tCheck tApply : Nat) : Option (Bool × Nat × Container) :=
  let lockedDepth := depth + 1
  if Chunk.check c tx tDump tCheck then
    let c1 := (bulkInsertCRUDerived c tx.insertions).2
    match tx.updates.foldl
        (fun acc p => acc.bind (fun cc => CRUTable.update cc p.2 tApply))
        (some c1) with
    | some c2 => some (true, lockedDepth - 1, c2)
    | none => none
  else
    some (false, lockedDepth - 1, c)

/-- An event of the multi-chunk commit protocol of NetTableTransaction:
taking a chunk's distributed write lock, committing a chunk transaction,
or releasing a chunk's lock. -/
inductive NTEvent
  | lockEv (chunk : Nat)
  | commitEv (chunk : Nat)
  | unlockEv (chunk : Nat)
deriving DecidableEq, Repr

/-- NetTableTransaction::commit as its trace of per-chunk lock events:
lock() walks chunk_transactions_ locking each chunk in iteration order;
if check() fails, unlock() walks the same container in the same order
and the commit returns false; otherwise every chunk transaction is
committed and unlock() again walks the container in the same order.
The chunks argument is the iteration order of chunk_transactions_. -/
def NetTableTransaction.commitTrace (chunks : List Nat) (checkOK : Bool) :
    Bool × List NTEvent :=
  let locks := chunks.map NTEvent.lockEv
  if checkOK then
    (true, locks ++ chunks.map NTEvent.commitEv ++ chunks.map NTEvent.unlockEv)
  else
    (false, locks ++ chunks.map NTEvent.unlockEv)

/-- The chunks of a trace in the order their locks were acquired. -/
def acquisitionOrder (tr : List NTEvent) : List Nat :=
  tr.filterMap (fun e => match e with | NTEvent.lockEv c => some c | _ => none)

/-- The chunks of a trace in the order their locks were released. -/
def releaseOrder (tr : List NTEvent) : List Nat :=
  tr.filterMap (fun e => match e with | NTEvent.unlockEv c => some c | _ => none)

/-- An entry of the Raft log (RaftNode::LogEntry): index, term and the
opaque entry payload. -/
structure LogEntry where
  index : Nat
  term : Nat
  entry : Nat
deriving DecidableEq, Repr

/-- The proto RequestVote message: candidate term, last log index and
term, and commit index. -/
structure RequestVote where
  term : Nat
  lastLogIndex : Nat
  lastLogTerm : Nat
  commitIndex : Nat
deriving DecidableEq, Repr

/-- The voter-side Raft state read and written by handleRequestVote:
current term, log, whether a leader is known, role, and the largest vote
request term seen. -/
structure RaftVoterState where
  currentTerm : Nat
  logEntries : List LogEntry
  leaderKnown : Bool
  isLeader : Bool
  lastVoteRequestTerm : Nat
deriving DecidableEq, Repr

/-- The sentinel entry the RaftNode constructor places at the log front
(index 0, term 0). -/
def defaultLogEntry : LogEntry := { index := 0, term := 0, entry := 0 }

/-- RaftNode::handleRequestVote: the vote is granted exactly when the
candidate's term is strictly above the voter's current term and the
candidate's log is at least as up to date (strictly higher last log
term, or equal last log term and at least the voter's last log index);
granting adopts the candidate's term, forgets the known leader and
steps down to follower. -/
def RaftNode.handleRequestVote (s : RaftVoterState) (req : RequestVote) :
    Bool × RaftVoterState :=
  let s1 : RaftVoterState :=
    { s with lastVoteRequestTerm := max s.lastVoteRequestTerm req.term }
  if s.currentTerm < req.term ∧
      ((s.logEntries.getLastD defaultLogEntry).term < req.lastLogTerm ∨
        (req.lastLogTerm = (s.logEntries.getLastD defaultLogEntry).term ∧
          (s.logEntries.getLastD defaultLogEntry).index ≤ req.lastLogIndex)) then
    (true, { s1 with
      currentTerm := req.term
      leaderKnown := false
      isLeader := false })
  else
    (false, s1)

/-- The optional new-entry payload of an AppendEntries message: the
fields new_entry, new_entry_term, previous_log_index and
previous_log_term, which followerAppendNewEntries requires together. -/
structure NewEntryData where
  entry : Nat
  entryTerm : Nat
  prevLogIndex : Nat
  prevLogTerm : Nat
deriving DecidableEq, Repr

/-- The possible response codes of an AppendEntries exchange. -/
inductive RaftResponse
  | success
  | alreadyPresent
  | rejected
  | failed
deriving DecidableEq, Repr

/-- RaftNode::getIteratorByIndex: the position of a log index inside the
log vector, none when out of range; assumes sequential indices. -/
def getIteratorByIndex (log : List LogEntry) (index : Nat) : Option Nat :=
  match log.head?, log.getLast? with
  | some front, some back =>
    if index < front.index || back.index < index then none
    else some (index - front.index)
  | _, _ => none

/-- RaftNode::followerAppendNewEntries: with no new entry the call is a
heartbeat (SUCCESS, log unchanged); if the previous index/term matches
the log tail the entry is appended; if the previous index lies strictly
inside the log, a matching older entry truncates the log right after it
and appends the new entry, guarded by the fatal
CHECK_LT(commit_index(), (it + 1)->index) (none when violated); every
other shape is FAILED. -/
def followerAppendNewEntries (log : List LogEntry) (commitIndex : Nat)
    (newEntry : Option NewEntryData) : Option (RaftResponse × List LogEntry) :=
  match newEntry with
  | none => some (RaftResponse.success, log)
  | some ne =>
    match log.getLast? with
    | none => none
    | some back =>
      if ne.prevLogIndex = back.index ∧ ne.prevLogTerm = back.term then
        some (RaftResponse.success,
          log ++ [{ index := back.index + 1, term := ne.entryTerm, entry := ne.entry }])
      else if ne.prevLogIndex < back.index then
        match getIteratorByIndex log ne.prevLogIndex with
        | some pos =>
          match log.get? pos with
          | some e =>
            if e.index ≠ ne.prevLogIndex then none
            else if ne.prevLogTerm = e.term then
              match log.get? (pos + 1) with
              | some e1 =>
                if commitIndex < e1.index then
                  some (RaftResponse.success,
                    log.take (pos + 1) ++
                      [{ index := e.index + 1, term := ne.entryTerm, entry := ne.entry }])
                else none
              | none => none
            else some (RaftResponse.failed, log)
          | none => none
        | none => some (RaftResponse.failed, log)
      else some (RaftResponse.failed, log)

/-- Sequential-index well-formedness of a Raft log: nonempty, and the
entry at position i carries index front.index + i (the constructor's
sentinel plus push_back-only growth keeps this invariant). -/
def logWellFormed (log : List LogEntry) : Bool :=
  match log.head? with
  | none => false
  | some front =>
    (List.range log.length).all (fun i =>
      match log.get? i with
      | some e => e.index = front.index + i
      | none => false)

/-- The local distributed-RW-lock state of a chunk
(Chunk::DistributedRWLock::State together with the holder). -/
inductive DRWState
  | unlocked
  | readLocked (readers : Nat)
  | attempting
  | writeLocked (holder : Nat)
deriving DecidableEq, Repr

/-- The reply of a lock-request handler. -/
inductive LockReply
  | ack
  | decline
deriving DecidableEq, Repr

/-- Chunk::handleLockRequest after the reader-drain wait, on the local
lock state: UNLOCKED grants and records the requester as holder;
READ_LOCKED at this point is LOG(FATAL); ATTEMPTING declines (state kept)
when the own address is below the minimum peer address, with the fatal
CHECK(PeerId::self() < locker), and otherwise grants recording the
requester; WRITE_LOCKED declines.  Addresses are naturals, peers is the
chunk's peer set in its (ascending) iteration order; dereferencing
begin() of an empty peer set is undefined (none). -/
def Chunk.handleLockRequest (self : Nat) (peers : List Nat) (st : DRWState)
    (locker : Nat) : Option (LockReply × DRWState) :=
  match st with
  | DRWState.unlocked => some (LockReply.ack, DRWState.writeLocked locker)
  | DRWState.readLocked _ => none
  | DRWState.attempting =>
    match peers.min? with
    | none => none
    | some m =>
      if self < m then
        if self < locker then some (LockReply.decline, DRWState.attempting)
        else none
      else some (LockReply.ack, DRWState.writeLocked locker)
  | DRWState.writeLocked h => some (LockReply.decline, DRWState.writeLocked h)

/-- The buffered maps of a ChunkTransaction relevant to id uniqueness:
the id-keyed insertions and updates maps. -/
structure ChunkTransactionBuffers where
  insertions : List (Nat × Revision)
  updates : List (Nat × Revision)
deriving DecidableEq, Repr

/-- The empty transaction buffer created by the ChunkTransaction
constructor. -/
def ChunkTransactionBuffers.empty : ChunkTransactionBuffers :=
  { insertions := [], updates := [] }

/-- ChunkTransaction::insert: CHECK(insertions_.insert(id, revision)
.second) — fatal (none) when the id is already in the insertions map,
otherwise the pair is added to it. -/
def ChunkTransactionBuffers.insert (s : ChunkTransactionBuffers) (r : Revision) :
    Option ChunkTransactionBuffers :=
  if (s.insertions.lookup r.id).isSome then none
  else some { s with insertions := s.insertions ++ [(r.id, r)] }

/-- ChunkTransaction::update: CHECK(updates_.insert(id, revision)
.second) — fatal (none) when the id is already in the updates map,
otherwise the pair is added to it. -/
def ChunkTransactionBuffers.update (s : ChunkTransactionBuffers) (r : Revision) :
    Option ChunkTransactionBuffers :=
  if (s.updates.lookup r.id).isSome then none
  else some { s with updates := s.updates ++ [(r.id, r)] }

/-- One buffered-write call on a chunk transaction. -/
inductive TxOp
  | ins (r : Revision)
  | upd (r : Revision)
deriving DecidableEq, Repr

/-- Run a sequence of insert/update calls on a transaction, propagating
fatal CHECK failures. -/
def applyTxOps (s : Option ChunkTransactionBuffers) (ops : List TxOp) :
    Option ChunkTransactionBuffers :=
  ops.foldl
    (fun acc op => acc.bind (fun st =>
      match op with
      | TxOp.ins r => st.insert r
      | TxOp.upd r => st.update r))
    s

/-- ChordIndex::isIn(key, from_inclusive, to_exclusive): ring membership
with a left-inclusive, right-exclusive reading; a degenerate interval
(to = from) contains every key. -/
def ChordIndex.isIn (key fromInclusive toExclusive : Nat) : Bool :=
  if key = fromInclusive then true
  else if toExclusive = fromInclusive then true
  else if fromInclusive ≤ toExclusive then
    decide (fromInclusive < key ∧ key < toExclusive)
  else
    decide (fromInclusive < key ∨ key < toExclusive)

/-- The two routes a Chord lookup can take at a node. -/
inductive ChordRoute
  | returnSuccessor
  | forwardViaClosestPrecedingFinger
deriving DecidableEq, Repr

/-- ChordIndex::findSuccessor's local routing decision: when
isIn(key, own_key_, successor_->key) holds the node's successor is
returned, otherwise the lookup is forwarded (findPredecessor starts at
closestPrecedingFinger(key)). -/
def ChordIndex.findSuccessorRoute (ownKey succKey key : Nat) : ChordRoute :=
  if ChordIndex.isIn key ownKey succKey then ChordRoute.returnSuccessor
  else ChordRoute.forwardViaClosestPrecedingFinger

/-- Modelled from the spec: the half-open-at-the-left ring interval
(self, successor] named by the lookup specification, with the degenerate
single-node ring (self = successor) covering every key.  Used only to
compare the spec's wording with the code's isIn. -/
def inOpenClosed (key low high : Nat) : Bool :=
  if low = high then true
  else if low < high then decide (low < key ∧ key ≤ high)
  else decide (low < key ∨ key ≤ high)

/-- The left-closed, right-open ring interval of the code's isIn,
written declaratively: keys k with self ≤ k < successor on the ring,
every key when self = successor. -/
def inClosedOpen (key low high : Nat) : Bool :=
  if low = high then true
  else if low ≤ high then decide (low ≤ key ∧ key < high)
  else decide (low ≤ key ∨ key < high)

/-! ### Theorems -/

/-- C3 counterexample: for a net-table transaction touching the two
chunks 0 and 1 (in that iteration order), the unlock phase of commit
releases the locks in acquisition order 0, 1 — not in the reverse of the
acquisition order as the claim states. -/
theorem netTable_unlock_not_reverse_cex :
    releaseOrder (NetTableTransaction.commitTrace [0, 1] true).2 ≠
      (acquisitionOrder (NetTableTransaction.commitTrace [0, 1] true).2).reverse :=
  by decide

theorem acquisitionOrder_append (a b : List NTEvent) :
    acquisitionOrder (a ++ b) = acquisitionOrder a ++ acquisitionOrder b := by
  unfold acquisitionOrder
  exact List.filterMap_append a b _

theorem releaseOrder_append (a b : List NTEvent) :
    releaseOrder (a ++ b) = releaseOrder a ++ releaseOrder b := by
  unfold releaseOrder
  exact List.filterMap_append a b _

theorem acquisitionOrder_locks (l : List Nat) :
    acquisitionOrder (l.map NTEvent.lockEv) = l := by
  induction l with
  | nil => rfl
  | cons a t ih =>
    simp [acquisitionOrder, List.filterMap_cons] at ih ⊢
    try exact ih

theorem acquisitionOrder_commits (l : List Nat) :
    acquisitionOrder (l.map NTEvent.commitEv) = [] := by
  induction l with
  | nil => rfl
  | cons a t ih =>
    simp [acquisitionOrder, List.filterMap_cons] at ih ⊢
    try exact ih

theorem acquisitionOrder_unlocks (l : List Nat) :
    acquisitionOrder (l.map NTEvent.unlockEv) = [] := by
  induction l with
  | nil => rfl
  | cons a t ih =>
    simp [acquisitionOrder, List.filterMap_cons] at ih ⊢
    try exact ih

theorem releaseOrder_locks (l : List Nat) :
    releaseOrder (l.map NTEvent.lockEv) = [] := by
  induction l with
  | nil => rfl
  | cons a t ih =>
    simp [releaseOrder, List.filterMap_cons] at ih ⊢
    try exact ih

theorem releaseOrder_commits (l : List Nat) :
    releaseOrder (l.map NTEvent.commitEv) = [] := by
  induction l with
  | nil => rfl
  | cons a t ih =>
    simp [releaseOrder, List.filterMap_cons] at ih ⊢
    try exact ih

theorem releaseOrder_unlocks (l : List Nat) :
    releaseOrder (l.map NTEvent.unlockEv) = l := by
  induction l with
  | nil => rfl
  | cons a t ih =>
    simp [releaseOrder, List.filterMap_cons] at ih ⊢
    try exact ih

/-- C3 amended: in every net-table transaction commit the locks of the
touched chunks are acquired in the iteration order of the transaction's
chunk-transaction container, and released in that same order (the unlock
loop walks the same container forwards, not in reverse). -/
theorem netTable_unlock_same_order (chunks : List Nat) (checkOK : Bool) :
    releaseOrder (NetTableTransaction.commitTrace chunks checkOK).2 =
      acquisitionOrder (NetTableTransaction.commitTrace chunks checkOK).2 := by
  cases checkOK <;>
    simp [NetTableTransaction.commitTrace, acquisitionOrder_append,
      releaseOrder_append, acquisitionOrder_locks, acquisitionOrder_commits,
      acquisitionOrder_unlocks, releaseOrder_locks, releaseOrder_commits,
      releaseOrder_unlocks]

/-- C4: an incoming Raft vote request is granted exactly when the
candidate's term strictly exceeds the voter's current term and the
candidate's log is at least as up to date: strictly higher last log
term, or equal last log term with last log index at least the voter's. -/
theorem raft_vote_granted_iff (s : RaftVoterState) (req : RequestVote) :
    (RaftNode.handleRequestVote s req).1 = true ↔
      (s.currentTerm < req.term ∧
        ((s.logEntries.getLastD defaultLogEntry).term < req.lastLogTerm ∨
          (req.lastLogTerm = (s.logEntries.getLastD defaultLogEntry).term ∧
            (s.logEntries.getLastD defaultLogEntry).index ≤ req.lastLogIndex))) := by
  unfold RaftNode.handleRequestVote
  split
  case isTrue h => simpa using h
  case isFalse h => simpa using h

/-- C8 counterexample: at a node with own key 0 and successor key 5, the
key 5 lies in the spec's interval (self, successor], yet findSuccessor
forwards the lookup instead of returning the successor (the code's
interval test is left-inclusive and right-exclusive). -/
theorem chord_lookup_interval_cex :
    inOpenClosed 5 0 5 = true ∧
      ChordIndex.findSuccessorRoute 0 5 5 =
        ChordRoute.forwardViaClosestPrecedingFinger :=
  by decide

theorem isIn_iff_inClosedOpen (key low high : Nat) :
    ChordIndex.isIn key low high = true ↔ inClosedOpen key low high = true := by
  unfold ChordIndex.isIn inClosedOpen
  split_ifs <;>
    simp only [decide_eq_true_eq, eq_self_iff_true, true_iff, iff_true,
      iff_self] <;>
    omega

/-- C8 amended: a Chord lookup of key k returns the node's successor
exactly when k lies in the left-closed right-open ring interval
[self, successor) — every key when self = successor — and otherwise
forwards via the closest preceding finger. -/
theorem chord_findSuccessor_interval (ownKey succKey key : Nat) :
    ChordIndex.findSuccessorRoute ownKey succKey key =
        ChordRoute.returnSuccessor ↔
      inClosedOpen key ownKey succKey = true := by
  unfold ChordIndex.findSuccessorRoute
  split_ifs with h
  · simp only [true_iff]
    exact (isIn_iff_inClosedOpen key ownKey succKey).mp h
  · constructor
    · intro hcontra
      exact absurd hcontra (by simp)
    · intro hco
      exact absurd ((isIn_iff_inClosedOpen key ownKey succKey).mpr hco) h

/-- C9 counterexample: on a fresh chunk transaction, insert of a
revision with id 0 followed by update with the same id both succeed and
leave id 0 present in the insertions map and in the updates map at
once. -/
theorem chunkTransaction_id_in_two_maps_cex :
    applyTxOps (some ChunkTransactionBuffers.empty)
        [TxOp.ins { id := 0, insertTime := 1, updateTime := 1, removed := false,
                    chunkId := 0, fields := [] },
         TxOp.upd { id := 0, insertTime := 1, updateTime := 2, removed := false,
                    chunkId := 0, fields := [] }] =
      some { insertions := [(0, { id := 0, insertTime := 1, updateTime := 1,
                                  removed := false, chunkId := 0, fields := [] })],
             updates := [(0, { id := 0, insertTime := 1, updateTime := 2,
                               removed := false, chunkId := 0, fields := [] })] } :=
  by decide

/-- C7 counterexample: patching the empty container with a revision
(id 0, update time 1) succeeds, but patching the resulting container
with the very same revision is fatal (CHECK_NE on the equal update
time) instead of the no-op the claim states, so patch is not
idempotent. -/
theorem patch_not_idempotent_cex :
    patchCRDerived []
        { id := 0, insertTime := 1, updateTime := 1, removed := false,
          chunkId := 0, fields := [] } =
      some [(0, [{ id := 0, insertTime := 1, updateTime := 1, removed := false,
                   chunkId := 0, fields := [] }])] ∧
    patchCRDerived
        [(0, [{ id := 0, insertTime := 1, updateTime := 1, removed := false,
                chunkId := 0, fields := [] }])]
        { id := 0, insertTime := 1, updateTime := 1, removed := false,
          chunkId := 0, fields := [] } = none :=
  by decide

theorem patchHistory_reapply_fatal (h h' : List Revision) (r : Revision)
    (hp : patchHistory h r = some h') : patchHistory h' r = none := by
  induction h generalizing h' with
  | nil =>
    simp only [patchHistory, Option.some.injEq] at hp
    subst hp
    simp [patchHistory]
  | cons e rest ih =>
    by_cases hle : e.updateTime ≤ r.updateTime
    · by_cases heq : r.updateTime = e.updateTime
      · simp [patchHistory, hle, heq] at hp
      · simp only [patchHistory, if_pos hle, if_neg heq, Option.some.injEq] at hp
        subst hp
        simp [patchHistory]
    · simp only [patchHistory, if_neg hle] at hp
      cases hrec : patchHistory rest r with
      | none => rw [hrec] at hp; exact absurd hp (by simp)
      | some rest' =>
        rw [hrec] at hp
        simp only [Option.some.injEq] at hp
        subst hp
        simp [patchHistory, hle, ih rest' hrec]

/-- C7 amended: the row container's patch is not idempotent; it places
the revision before the first stored entry whose update time is at or
before the revision's, and an update-time collision is a fatal CHECK
rather than a no-op admission — hence re-applying any successfully
patched revision is fatal. -/
theorem patch_reapply_fatal (c c' : Container) (r : Revision)
    (hp : patchCRDerived c r = some c') : patchCRDerived c' r = none := by
  induction c generalizing c' with
  | nil =>
    simp only [patchCRDerived, Option.some.injEq] at hp
    subst hp
    simp [patchCRDerived, patchHistory]
  | cons p rest ih =>
    obtain ⟨i, h⟩ := p
    by_cases hid : r.id = i
    · cases hh : patchHistory h r with
      | none => simp [patchCRDerived, hid, hh] at hp
      | some h' =>
        simp only [patchCRDerived, if_pos hid, hh, Option.some.injEq] at hp
        subst hp
        simp [patchCRDerived, hid, patchHistory_reapply_fatal h h' r hh]
    · cases hr : patchCRDerived rest r with
      | none => simp [patchCRDerived, hid, hr] at hp
      | some rest' =>
        simp only [patchCRDerived, if_neg hid, hr, Option.some.injEq] at hp
        subst hp
        simp [patchCRDerived, hid, ih rest' hr]

/-- Witness for patch_reapply_fatal at the container holding the single
revision (id 0, update time 1): re-patching that revision is fatal. -/
theorem patch_reapply_fatal_witness :
    patchCRDerived
        [(0, [{ id := 0, insertTime := 1, updateTime := 1, removed := false,
                chunkId := 0, fields := [] }])]
        { id := 0, insertTime := 1, updateTime := 1, removed := false,
          chunkId := 0, fields := [] } = none :=
  patch_reapply_fatal []
    [(0, [{ id := 0, insertTime := 1, updateTime := 1, removed := false,
            chunkId := 0, fields := [] }])]
    { id := 0, insertTime := 1, updateTime := 1, removed := false,
      chunkId := 0, fields := [] }
    (by decide)

theorem lookup_none_not_mem_keys {β : Type} (l : List (Nat × β)) (k : Nat)
    (h : l.lookup k = none) : k ∉ l.map Prod.fst := by
  induction l with
  | nil => simp
  | cons p t ih =>
    by_cases hk : k = p.1
    · exfalso
      obtain ⟨a, b⟩ := p
      simp only [List.lookup] at h
      rw [show (k == a) = true from beq_iff_eq.mpr hk] at h
      exact absurd h (by simp)
    · obtain ⟨a, b⟩ := p
      simp only [List.lookup] at h
      rw [show (k == a) = false from beq_eq_false_iff_ne.mpr hk] at h
      simp only [List.map_cons, List.mem_cons]
      rintro (h1 | h2)
      · exact hk h1
      · exact ih h h2

theorem applyTxOps_none (ops : List TxOp) : applyTxOps none ops = none := by
  induction ops with
  | nil => rfl
  | cons op t ih => cases op <;> exact ih

theorem txInsert_preserves (s s' : ChunkTransactionBuffers) (r : Revision)
    (hi : (s.insertions.map Prod.fst).Nodup) (hu : (s.updates.map Prod.fst).Nodup)
    (h : s.insert r = some s') :
    (s'.insertions.map Prod.fst).Nodup ∧ (s'.updates.map Prod.fst).Nodup := by
  unfold ChunkTransactionBuffers.insert at h
  by_cases hl : (s.insertions.lookup r.id).isSome
  · rw [if_pos hl] at h; exact absurd h (by simp)
  · rw [if_neg hl] at h
    simp only [Option.some.injEq] at h
    subst h
    refine ⟨?_, hu⟩
    have hnm : r.id ∉ s.insertions.map Prod.fst :=
      lookup_none_not_mem_keys _ _ (Option.not_isSome_iff_eq_none.mp hl)
    simp only [List.map_append, List.map_cons, List.map_nil]
    rw [List.nodup_append]
    refine ⟨hi, List.nodup_singleton _, ?_⟩
    intro a ha hb
    simp only [List.mem_singleton] at hb
    exact hnm (hb ▸ ha)

theorem txUpdate_preserves (s s' : ChunkTransactionBuffers) (r : Revision)
    (hi : (s.insertions.map Prod.fst).Nodup) (hu : (s.updates.map Prod.fst).Nodup)
    (h : s.update r = some s') :
    (s'.insertions.map Prod.fst).Nodup ∧ (s'.updates.map Prod.fst).Nodup := by
  unfold ChunkTransactionBuffers.update at h
  by_cases hl : (s.updates.lookup r.id).isSome
  · rw [if_pos hl] at h; exact absurd h (by simp)
  · rw [if_neg hl] at h
    simp only [Option.some.injEq] at h
    subst h
    refine ⟨hi, ?_⟩
    have hnm : r.id ∉ s.updates.map Prod.fst :=
      lookup_none_not_mem_keys _ _ (Option.not_isSome_iff_eq_none.mp hl)
    simp only [List.map_append, List.map_cons, List.map_nil]
    rw [List.nodup_append]
    refine ⟨hu, List.nodup_singleton _, ?_⟩
    intro a ha hb
    simp only [List.mem_singleton] at hb
    exact hnm (hb ▸ ha)

theorem applyTxOps_nodup_aux (ops : List TxOp) :
    ∀ (s0 s1 : ChunkTransactionBuffers),
      (s0.insertions.map Prod.fst).Nodup → (s0.updates.map Prod.fst).Nodup →
      applyTxOps (some s0) ops = some s1 →
      (s1.insertions.map Prod.fst).Nodup ∧ (s1.updates.map Prod.fst).Nodup := by
  induction ops with
  | nil =>
    intro s0 s1 h1 h2 h
    simp only [applyTxOps, List.foldl_nil, Option.some.injEq] at h
    subst h
    exact ⟨h1, h2⟩
  | cons op t ih =>
    intro s0 s1 h1 h2 h
    cases op with
    | ins r =>
      have h' : applyTxOps (s0.insert r) t = some s1 := h
      cases hstep : s0.insert r with
      | none =>
        rw [hstep] at h'
        rw [applyTxOps_none] at h'
        exact absurd h' (by simp)
      | some s0' =>
        rw [hstep] at h'
        obtain ⟨hn1, hn2⟩ := txInsert_preserves s0 s0' r h1 h2 hstep
        exact ih s0' s1 hn1 hn2 h'
    | upd r =>
      have h' : applyTxOps (s0.update r) t = some s1 := h
      cases hstep : s0.update r with
      | none =>
        rw [hstep] at h'
        rw [applyTxOps_none] at h'
        exact absurd h' (by simp)
      | some s0' =>
        rw [hstep] at h'
        obtain ⟨hn1, hn2⟩ := txUpdate_preserves s0 s0' r h1 h2 hstep
        exact ih s0' s1 hn1 hn2 h'

/-- C9 amended: within each single buffered map of a chunk transaction
an id appears at most once (a duplicate insert or duplicate update is a
fatal CHECK), but the same id may legally end up in the insertions map
and in the updates map at once; every reachable transaction state has
duplicate-free keys in each individual map. -/
theorem chunkTransaction_per_map_nodup (ops : List TxOp)
    (s : ChunkTransactionBuffers)
    (h : applyTxOps (some ChunkTransactionBuffers.empty) ops = some s) :
    (s.insertions.map Prod.fst).Nodup ∧ (s.updates.map Prod.fst).Nodup :=
  applyTxOps_nodup_aux ops ChunkTransactionBuffers.empty s
    (by simp [ChunkTransactionBuffers.empty]) (by simp [ChunkTransactionBuffers.empty]) h

/-- Witness for chunkTransaction_per_map_nodup after one insert of the
revision with id 0. -/
theorem chunkTransaction_per_map_nodup_witness :
    (([(0, { id := 0, insertTime := 1, updateTime := 1, removed := false,
             chunkId := 0, fields := [] })] :
        List (Nat × Revision)).map Prod.fst).Nodup ∧
      (([] : List (Nat × Revision)).map Prod.fst).Nodup :=
  chunkTransaction_per_map_nodup
    [TxOp.ins { id := 0, insertTime := 1, updateTime := 1, removed := false,
                chunkId := 0, fields := [] }]
    { insertions := [(0, { id := 0, insertTime := 1, updateTime := 1,
                           removed := false, chunkId := 0, fields := [] })],
      updates := [] }
    (by decide)

/-- C6: on a lock request received in the ATTEMPTING state from a
requester that belongs to the chunk's peer set, the handler declines
(leaving the state ATTEMPTING) exactly when its own address is below the
requester's address and below every peer address; in every other
ATTEMPTING case it acknowledges and records the requester as the write
holder. -/
theorem chunk_lock_attempting_decline_iff (self locker : Nat)
    (peers : List Nat) (hmem : locker ∈ peers) :
    (Chunk.handleLockRequest self peers DRWState.attempting locker =
        some (LockReply.decline, DRWState.attempting) ↔
      (self < locker ∧ ∀ p ∈ peers, self < p)) ∧
    (¬(self < locker ∧ ∀ p ∈ peers, self < p) →
      Chunk.handleLockRequest self peers DRWState.attempting locker =
        some (LockReply.ack, DRWState.writeLocked locker)) := by
  obtain ⟨m, hm⟩ := Option.isSome_iff_exists.mp (List.isSome_min?_of_mem hmem)
  have hspec : m ∈ peers ∧ ∀ b ∈ peers, m ≤ b := by
    have := (List.min?_eq_some_iff (fun a => le_refl a) (fun a b => min_choice a b)
      (fun a b c => le_min_iff)).mp hm
    exact ⟨this.1, fun b hb => this.2 b hb⟩
  by_cases hlt : self < m
  · have hlock : self < locker := lt_of_lt_of_le hlt (hspec.2 locker hmem)
    have hall : ∀ p ∈ peers, self < p := fun p hp =>
      lt_of_lt_of_le hlt (hspec.2 p hp)
    have heval : Chunk.handleLockRequest self peers DRWState.attempting locker =
        some (LockReply.decline, DRWState.attempting) := by
      simp only [Chunk.handleLockRequest, hm, if_pos hlt, if_pos hlock]
    constructor
    · rw [heval]
      exact iff_of_true rfl ⟨hlock, hall⟩
    · intro hcontra
      exact absurd ⟨hlock, hall⟩ hcontra
  · have hne : ¬(self < locker ∧ ∀ p ∈ peers, self < p) := by
      rintro ⟨_, hall⟩
      exact hlt (hall m hspec.1)
    have heval : Chunk.handleLockRequest self peers DRWState.attempting locker =
        some (LockReply.ack, DRWState.writeLocked locker) := by
      simp only [Chunk.handleLockRequest, hm, if_neg hlt]
    constructor
    · rw [heval]
      exact iff_of_false (by simp) hne
    · intro _
      exact heval

/-- Witness for chunk_lock_attempting_decline_iff: self 0, requester 2,
peer set containing 1 and 2 — the handler declines, matching the
condition. -/
theorem chunk_lock_attempting_decline_iff_witness :
    (Chunk.handleLockRequest 0 [1, 2] DRWState.attempting 2 =
        some (LockReply.decline, DRWState.attempting) ↔
      ((0 : Nat) < 2 ∧ ∀ p ∈ [1, 2], (0 : Nat) < p)) ∧
    (¬((0 : Nat) < 2 ∧ ∀ p ∈ [1, 2], (0 : Nat) < p) →
      Chunk.handleLockRequest 0 [1, 2] DRWState.attempting 2 =
        some (LockReply.ack, DRWState.writeLocked 2)) :=
  chunk_lock_attempting_decline_iff 0 2 [1, 2] (by decide)

/-- C2: when the conflict check of a chunk transaction fails, commit on
the chunk returns false, the write lock taken at the start of commit is
released (the lock recursion depth is restored), and the chunk's row
container is left exactly as it was: no buffered insertion or update is
applied. -/
theorem chunk_commit_failure_clean (depth : Nat) (c : Container)
    (tx : ChunkTransaction) (tDump tCheck tApply : Nat)
    (h : Chunk.check c tx tDump tCheck = false) :
    Chunk.commit depth c tx tDump tCheck tApply = some (false, depth, c) := by
  unfold Chunk.commit
  simp [h]

/-- Witness for chunk_commit_failure_clean: a container already holding
id 0 and a transaction inserting id 0 — the check fails and commit
leaves the container and the lock depth unchanged. -/
theorem chunk_commit_failure_clean_witness :
    Chunk.commit 0
        [(0, [{ id := 0, insertTime := 1, updateTime := 1, removed := false,
                chunkId := 0, fields := [] }])]
        { beginTime := 2,
          insertions := [(0, { id := 0, insertTime := 3, updateTime := 3,
                               removed := false, chunkId := 0, fields := [] })],
          updates := [], conflictConditions := [] } 3 3 4 =
      some (false, 0,
        [(0, [{ id := 0, insertTime := 1, updateTime := 1, removed := false,
                chunkId := 0, fields := [] }])]) :=
  chunk_commit_failure_clean 0
    [(0, [{ id := 0, insertTime := 1, updateTime := 1, removed := false,
            chunkId := 0, fields := [] }])]
    { beginTime := 2,
      insertions := [(0, { id := 0, insertTime := 3, updateTime := 3,
                           removed := false, chunkId := 0, fields := [] })],
      updates := [], conflictConditions := [] } 3 3 4 (by decide)

theorem histOf_pushFrontAt_same (c : Container) (i : Nat) (r : Revision) :
    (Container.pushFrontAt c i r).histOf i = some (r :: (c.histOf i).getD []) := by
  induction c with
  | nil => simp [Container.pushFrontAt, Container.histOf, List.lookup]
  | cons p rest ih =>
    obtain ⟨j, h⟩ := p
    by_cases hij : i = j
    · subst hij
      simp [Container.pushFrontAt, Container.histOf, List.lookup]
    · simp only [Container.pushFrontAt, if_neg hij]
      simp only [Container.histOf, List.lookup,
        show (i == j) = false from beq_eq_false_iff_ne.mpr hij] at ih ⊢
      exact ih

theorem histOf_pushFrontAt_other (c : Container) (i j : Nat) (r : Revision)
    (hij : j ≠ i) :
    (Container.pushFrontAt c i r).histOf j = c.histOf j := by
  induction c with
  | nil =>
    simp [Container.pushFrontAt, Container.histOf, List.lookup,
      show (j == i) = false from beq_eq_false_iff_ne.mpr hij]
  | cons p rest ih =>
    obtain ⟨k, h⟩ := p
    by_cases hik : i = k
    · subst hik
      simp [Container.pushFrontAt, Container.histOf, List.lookup,
        show (j == i) = false from beq_eq_false_iff_ne.mpr hij]
    · simp only [Container.pushFrontAt, if_neg hik]
      by_cases hjk : j = k
      · subst hjk
        simp [Container.histOf, List.lookup]
      · simp only [Container.histOf, List.lookup,
          show (j == k) = false from beq_eq_false_iff_ne.mpr hjk] at ih ⊢
        exact ih

theorem foldl_pushFrontAt_untouched (batch : List (Nat × Revision))
    (c : Container) (j : Nat) (hj : j ∉ batch.map Prod.fst) :
    (batch.foldl (fun acc p => Container.pushFrontAt acc p.1 p.2) c).histOf j =
      c.histOf j := by
  induction batch generalizing c with
  | nil => rfl
  | cons q t ih =>
    simp only [List.map_cons, List.mem_cons] at hj
    push_neg at hj
    simp only [List.foldl_cons]
    rw [ih _ hj.2, histOf_pushFrontAt_other _ _ _ _ hj.1]

theorem foldl_pushFrontAt_fresh (batch : List (Nat × Revision)) (c : Container)
    (hnd : (batch.map Prod.fst).Nodup) (habs : ∀ p ∈ batch, c.histOf p.1 = none) :
    ∀ p ∈ batch,
      (batch.foldl (fun acc p => Container.pushFrontAt acc p.1 p.2) c).histOf p.1 =
        some [p.2] := by
  induction batch generalizing c with
  | nil => intro p hp; exact absurd hp (by simp)
  | cons q t ih =>
    intro p hp
    simp only [List.map_cons, List.nodup_cons] at hnd
    simp only [List.foldl_cons]
    rcases List.mem_cons.mp hp with hq | ht
    · subst hq
      rw [foldl_pushFrontAt_untouched t _ p.1 hnd.1]
      rw [histOf_pushFrontAt_same, habs p (List.mem_cons_self _ _)]
      rfl
    · refine ih _ hnd.2 ?_ p ht
      intro p' hp'
      have hne : p'.1 ≠ q.1 := by
        intro hcontra
        exact hnd.1 (hcontra ▸ List.mem_map_of_mem Prod.fst hp')
      rw [histOf_pushFrontAt_other _ _ _ _ hne]
      exact habs p' (List.mem_cons_of_mem _ hp')

/-- C10: bulk insert into the row container is all-or-nothing — if any
id of the (duplicate-free) batch is already present the call returns
false with the container unchanged, and otherwise it returns true
having stored every revision of the batch as the fresh single-entry
history of its id. -/
theorem bulkInsert_all_or_nothing (c : Container) (batch : List (Nat × Revision))
    (hnd : (batch.map Prod.fst).Nodup) :
    ((∃ p ∈ batch, (c.histOf p.1).isSome) →
        bulkInsertCRUDerived c batch = (false, c)) ∧
    ((∀ p ∈ batch, c.histOf p.1 = none) →
        (bulkInsertCRUDerived c batch).1 = true ∧
        ∀ p ∈ batch, (bulkInsertCRUDerived c batch).2.histOf p.1 = some [p.2]) := by
  constructor
  · intro hex
    have hany : batch.any (fun p => (c.histOf p.1).isSome) = true := by
      rw [List.any_eq_true]
      obtain ⟨p, hp, hs⟩ := hex
      exact ⟨p, hp, hs⟩
    unfold bulkInsertCRUDerived
    rw [if_pos hany]
  · intro habs
    have hany : batch.any (fun p => (c.histOf p.1).isSome) = false := by
      rw [List.any_eq_false]
      intro p hp
      rw [habs p hp]
      simp
    unfold bulkInsertCRUDerived
    rw [if_neg (by rw [hany]; exact Bool.false_ne_true)]
    exact ⟨rfl, foldl_pushFrontAt_fresh batch c hnd habs⟩

/-- Witness for bulkInsert_all_or_nothing: a batch of the single id 0
inserted into the empty container succeeds and stores its revision. -/
theorem bulkInsert_all_or_nothing_witness :
    ((∃ p ∈ [((0 : Nat),
          { id := 0, insertTime := 1, updateTime := 1, removed := false,
            chunkId := 0, fields := [] : Revision })],
        (Container.histOf [] p.1).isSome) →
      bulkInsertCRUDerived []
          [(0, { id := 0, insertTime := 1, updateTime := 1, removed := false,
                 chunkId := 0, fields := [] })] = (false, [])) ∧
    ((∀ p ∈ [((0 : Nat),
          { id := 0, insertTime := 1, updateTime := 1, removed := false,
            chunkId := 0, fields := [] : Revision })],
        Container.histOf [] p.1 = none) →
      (bulkInsertCRUDerived []
          [(0, { id := 0, insertTime := 1, updateTime := 1, removed := false,
                 chunkId := 0, fields := [] })]).1 = true ∧
      ∀ p ∈ [((0 : Nat),
          { id := 0, insertTime := 1, updateTime := 1, removed := false,
            chunkId := 0, fields := [] : Revision })],
        (bulkInsertCRUDerived []
            [(0, { id := 0, insertTime := 1, updateTime := 1, removed := false,
                   chunkId := 0, fields := [] })]).2.histOf p.1 =
          some [p.2]) :=
  bulkInsert_all_or_nothing []
    [(0, { id := 0, insertTime := 1, updateTime := 1, removed := false,
           chunkId := 0, fields := [] })] (by decide)

/-- C1: for every chunk transaction with a positive begin time, the
chunk's conflict check fails exactly when some buffered insertion's id
is already present among the container's rows visible at the dump time,
or some buffered update targets an id whose current latest update time
is at or after the transaction's begin time, or some conflict condition
(key, exemplar) matches at least one row at the conflict-check time. -/
theorem chunk_check_fails_iff (c : Container) (tx : ChunkTransaction)
    (tDump tCheck : Nat) (hbt : 0 < tx.beginTime) :
    Chunk.check c tx tDump tCheck = false ↔
      ((∃ p ∈ tx.insertions, p.1 ∈ (dumpAt c tDump).map Prod.fst) ∨
       (∃ p ∈ tx.updates, ∃ r, (dumpAt c tDump).lookup p.1 = some r ∧
          tx.beginTime ≤ r.updateTime) ∨
       (∃ cond ∈ tx.conflictConditions, ∃ q ∈ dumpAt c tCheck,
          (cond.key < 0 ∨
            Revision.fieldMatch cond.valueHolder q.2 cond.key = true))) := by
  have aux1 : (tx.insertions.any
        (fun p => ((dumpAt c tDump).map Prod.fst).contains p.1) = true) ↔
      ∃ p ∈ tx.insertions, p.1 ∈ (dumpAt c tDump).map Prod.fst := by
    rw [List.any_eq_true]
    constructor
    · rintro ⟨p, hp, h⟩
      exact ⟨p, hp, List.elem_iff.mp h⟩
    · rintro ⟨p, hp, h⟩
      exact ⟨p, hp, List.elem_iff.mpr h⟩
  have aux2 : (tx.updates.any (fun p =>
        tx.beginTime ≤ (match (dumpAt c tDump).lookup p.1 with
          | some r => r.updateTime
          | none => 0)) = true) ↔
      ∃ p ∈ tx.updates, ∃ r, (dumpAt c tDump).lookup p.1 = some r ∧
        tx.beginTime ≤ r.updateTime := by
    rw [List.any_eq_true]
    constructor
    · rintro ⟨p, hp, hle⟩
      rw [decide_eq_true_eq] at hle
      cases hl : (dumpAt c tDump).lookup p.1 with
      | none =>
        simp only [hl] at hle
        exact absurd hle (by omega)
      | some r =>
        simp only [hl] at hle
        exact ⟨p, hp, r, hl, hle⟩
    · rintro ⟨p, hp, r, hl, hle⟩
      refine ⟨p, hp, ?_⟩
      rw [decide_eq_true_eq]
      simp only [hl]
      exact hle
  have aux3 : (tx.conflictConditions.any (fun cond =>
        0 < countByRevision c cond.key cond.valueHolder tCheck) = true) ↔
      ∃ cond ∈ tx.conflictConditions, ∃ q ∈ dumpAt c tCheck,
        (cond.key < 0 ∨
          Revision.fieldMatch cond.valueHolder q.2 cond.key = true) := by
    rw [List.any_eq_true]
    have hcount : ∀ cond : ConflictCondition,
        0 < countByRevision c cond.key cond.valueHolder tCheck ↔
          ∃ q ∈ dumpAt c tCheck,
            (cond.key < 0 ∨
              Revision.fieldMatch cond.valueHolder q.2 cond.key = true) := by
      intro cond
      unfold countByRevision
      rw [List.length_pos, ne_eq, List.filter_eq_nil_iff]
      push_neg
      constructor
      · rintro ⟨q, hq, hpred⟩
        rw [Bool.or_eq_true, decide_eq_true_eq] at hpred
        exact ⟨q, hq, hpred⟩
      · rintro ⟨q, hq, hpred⟩
        refine ⟨q, hq, ?_⟩
        rw [Bool.or_eq_true, decide_eq_true_eq]
        exact hpred
    constructor
    · rintro ⟨cond, hc, h⟩
      rw [decide_eq_true_eq] at h
      exact ⟨cond, hc, (hcount cond).mp h⟩
    · rintro ⟨cond, hc, h⟩
      refine ⟨cond, hc, ?_⟩
      rw [decide_eq_true_eq]
      exact (hcount cond).mpr h
  unfold Chunk.check
  split_ifs with h1 h2 h3
  · exact iff_of_true rfl (Or.inl (aux1.mp h1))
  · exact iff_of_true rfl (Or.inr (Or.inl (aux2.mp h2)))
  · exact iff_of_true rfl (Or.inr (Or.inr (aux3.mp h3)))
  · refine iff_of_false (by simp) ?_
    rintro (h | h | h)
    · exact h1 (aux1.mpr h)
    · exact h2 (aux2.mpr h)
    · exact h3 (aux3.mpr h)

/-- Witness for chunk_check_fails_iff: a container holding id 0, a
transaction with begin time 2 inserting id 0 — the check fails and the
first disjunct holds. -/
theorem chunk_check_fails_iff_witness :
    Chunk.check
        [(0, [{ id := 0, insertTime := 1, updateTime := 1, removed := false,
                chunkId := 0, fields := [] }])]
        { beginTime := 2,
          insertions := [(0, { id := 0, insertTime := 3, updateTime := 3,
                               removed := false, chunkId := 0, fields := [] })],
          updates := [], conflictConditions := [] } 3 3 = false ↔
      ((∃ p ∈ [((0 : Nat),
            { id := 0, insertTime := 3, updateTime := 3, removed := false,
              chunkId := 0, fields := [] : Revision })],
          p.1 ∈ (dumpAt
            [(0, [{ id := 0, insertTime := 1, updateTime := 1, removed := false,
                    chunkId := 0, fields := [] }])] 3).map Prod.fst) ∨
       (∃ p ∈ ([] : List (Nat × Revision)), ∃ r,
          (dumpAt
            [(0, [{ id := 0, insertTime := 1, updateTime := 1, removed := false,
                    chunkId := 0, fields := [] }])] 3).lookup p.1 = some r ∧
          2 ≤ r.updateTime) ∨
       (∃ cond ∈ ([] : List ConflictCondition), ∃ q ∈ dumpAt
            [(0, [{ id := 0, insertTime := 1, updateTime := 1, removed := false,
                    chunkId := 0, fields := [] }])] 3,
          (cond.key < 0 ∨
            Revision.fieldMatch cond.valueHolder q.2 cond.key = true))) :=
  chunk_check_fails_iff
    [(0, [{ id := 0, insertTime := 1, updateTime := 1, removed := false,
            chunkId := 0, fields := [] }])]
    { beginTime := 2,
      insertions := [(0, { id := 0, insertTime := 3, updateTime := 3,
                           removed := false, chunkId := 0, fields := [] })],
      updates := [], conflictConditions := [] } 3 3 (by decide)

theorem logWellFormed_spec (log : List LogEntry) (hwf : logWellFormed log = true) :
    ∃ front, log.head? = some front ∧
      ∀ i e, log.get? i = some e → e.index = front.index + i := by
  unfold logWellFormed at hwf
  cases hh : log.head? with
  | none =>
    rw [hh] at hwf
    exact absurd hwf (by simp)
  | some front =>
    rw [hh] at hwf
    refine ⟨front, rfl, ?_⟩
    intro i e hge
    have hi : i < log.length := (List.get?_eq_some.mp hge).1
    have hall := List.all_eq_true.mp hwf i (List.mem_range.mpr hi)
    rw [hge] at hall
    simpa using hall

/-- C5: the Raft follower never truncates a committed entry — whenever
followerAppendNewEntries finishes without tripping a fatal CHECK, every
entry of the old log that the new log no longer contains has an index
strictly greater than the commit index (the truncation that would
remove a committed entry is the fatal CHECK_LT, modelled as none). -/
theorem raft_no_committed_entry_truncated (log newLog : List LogEntry)
    (commitIndex : Nat) (newEntry : Option NewEntryData) (resp : RaftResponse)
    (hwf : logWellFormed log = true)
    (hrun : followerAppendNewEntries log commitIndex newEntry =
      some (resp, newLog)) :
    ∀ e ∈ log, e ∉ newLog → commitIndex < e.index := by
  intro e he hnot
  obtain ⟨front, hfront, hidx⟩ := logWellFormed_spec log hwf
  unfold followerAppendNewEntries at hrun
  cases newEntry with
  | none =>
    simp only [Option.some.injEq, Prod.mk.injEq] at hrun
    exact absurd (hrun.2 ▸ he) hnot
  | some ne =>
    cases hlast : log.getLast? with
    | none =>
      simp only [hlast] at hrun
      exact absurd hrun (by simp)
    | some back =>
      simp only [hlast] at hrun
      split_ifs at hrun with hb hlt
      · simp only [Option.some.injEq, Prod.mk.injEq] at hrun
        exact absurd (hrun.2 ▸ List.mem_append_left _ he) hnot
      · cases hit : getIteratorByIndex log ne.prevLogIndex with
        | none =>
          simp only [hit] at hrun
          simp only [Option.some.injEq, Prod.mk.injEq] at hrun
          exact absurd (hrun.2 ▸ he) hnot
        | some pos =>
          simp only [hit] at hrun
          cases hgp : log.get? pos with
          | none =>
            simp only [hgp] at hrun
            exact absurd hrun (by simp)
          | some e0 =>
            simp only [hgp] at hrun
            by_cases hne0 : e0.index ≠ ne.prevLogIndex
            · rw [if_pos hne0] at hrun
              exact absurd hrun (by simp)
            · rw [if_neg hne0] at hrun
              by_cases hterm : ne.prevLogTerm = e0.term
              · rw [if_pos hterm] at hrun
                cases hgp1 : log.get? (pos + 1) with
                | none =>
                  simp only [hgp1] at hrun
                  exact absurd hrun (by simp)
                | some e1 =>
                  simp only [hgp1] at hrun
                  by_cases hci : commitIndex < e1.index
                  · rw [if_pos hci] at hrun
                    simp only [Option.some.injEq, Prod.mk.injEq] at hrun
                    have he1idx : e1.index = front.index + (pos + 1) :=
                      hidx (pos + 1) e1 hgp1
                    have hsplit : e ∈ log.take (pos + 1) ++ log.drop (pos + 1) := by
                      rw [List.take_append_drop]
                      exact he
                    rcases List.mem_append.mp hsplit with htake | hdrop
                    · exact absurd (hrun.2 ▸ List.mem_append_left _ htake) hnot
                    · obtain ⟨j, hj⟩ := List.mem_iff_get?.mp hdrop
                      have hge : log.get? (pos + 1 + j) = some e := by
                        rw [← hj]
                        simp [List.get?_eq_getElem?, List.getElem?_drop]
                      have heidx := hidx (pos + 1 + j) e hge
                      omega
                  · rw [if_neg hci] at hrun
                    exact absurd hrun (by simp)
              · rw [if_neg hterm] at hrun
                simp only [Option.some.injEq, Prod.mk.injEq] at hrun
                exact absurd (hrun.2 ▸ he) hnot
      · simp only [Option.some.injEq, Prod.mk.injEq] at hrun
        exact absurd (hrun.2 ▸ he) hnot

/-- Witness for raft_no_committed_entry_truncated: a two-entry log with
commit index 0 receives a conflicting entry whose previous pair matches
the sentinel; the uncommitted entry at index 1 is truncated, and its
index indeed exceeds the commit index. -/
theorem raft_no_committed_entry_truncated_witness :
    (0 : Nat) < LogEntry.index { index := 1, term := 1, entry := 5 } :=
  raft_no_committed_entry_truncated
    [{ index := 0, term := 0, entry := 0 }, { index := 1, term := 1, entry := 5 }]
    [{ index := 0, term := 0, entry := 0 }, { index := 1, term := 2, entry := 7 }]
    0
    (some { entry := 7, entryTerm := 2, prevLogIndex := 0, prevLogTerm := 0 })
    RaftResponse.success
    (by decide)
    (by decide)
    { index := 1, term := 1, entry := 5 }
    (by decide)
    (by decide)

end MapApi
